import Mathlib

/-!
Verification of the `RunnableParallel` composite (fan-out / fan-in with a
streaming variant) from this repository's composition core.

The embedding follows the JavaScript source of `RunnableParallel`
(`runnable-parallel.js`): the constructor's duck-typed validation over raw
JavaScript values, the `_call` await-join loop, the race-based `_stream`
generator, and `batch` via `Promise.all`.  Asynchrony is made explicit by a
*schedule* assigning an abstract completion time to every branch (and, for
`batch`, to every input element); the value a child's `invoke` settles to is
modelled as a pure function of input and config returning `Except`.
-/

set_option autoImplicit false

/-- Modelled from the spec: the `ExecutionConfig`/`RunnableConfig` object
(`core/context.js` is not among the provided sources) carries an ordered
callback-handler list, a metadata mapping, a tag set and a `recursionLimit`
budget.  Handlers and metadata values are opaque here; `child()` returns a
copy with `recursionLimit` decremented by one. -/
structure RunnableConfig where
  callbacks : List Nat
  metadata : List (String × String)
  tags : List String
  recursionLimit : Nat
deriving DecidableEq

/-- Modelled from the spec: `child()` derives a copy of the config one
recursion level deeper (decremented budget). -/
def RunnableConfig.child (c : RunnableConfig) : RunnableConfig :=
  { c with recursionLimit := c.recursionLimit - 1 }

/-- A JavaScript value, as far as the constructor's duck-typed validation
needs to distinguish values: `typeof`, `Array.isArray`, truthiness and
property lookup on plain objects. -/
inductive JSVal where
  | undefv
  | nullv
  | boolv (b : Bool)
  | numv (n : Int)
  | strv (s : String)
  | funcv (id : Nat)
  | arrv
  | objv (entries : List (String × JSVal))

/-- The JavaScript `typeof` operator (note `typeof null = "object"`). -/
def JSVal.typeof : JSVal → String
  | .undefv => "undefined"
  | .nullv => "object"
  | .boolv _ => "boolean"
  | .numv _ => "number"
  | .strv _ => "string"
  | .funcv _ => "function"
  | .arrv => "object"
  | .objv _ => "object"

/-- `Array.isArray`. -/
def JSVal.isArray : JSVal → Bool
  | .arrv => true
  | _ => false

/-- JavaScript truthiness (`!v` is the negation of this). -/
def JSVal.truthy : JSVal → Bool
  | .undefv => false
  | .nullv => false
  | .boolv b => b
  | .numv n => n != 0
  | .strv s => s != ""
  | .funcv _ => true
  | .arrv => true
  | .objv _ => true

/-- Property access on an own-property assoc list; absent properties (and
property access on non-objects, which the constructor never performs) give
`undefined`. -/
def JSVal.getProp : JSVal → String → JSVal
  | .objv entries, key =>
    match entries.find? (fun p => p.1 == key) with
    | some p => p.2
    | none => .undefv
  | _, _ => .undefv

/-- The error message thrown for a value without an `invoke()` method. -/
def propertyError (name : String) : String :=
  "Property '" ++ name ++ "' must be a Runnable with an invoke() method"

/-- The validation loop of the constructor: `if (!runnable || typeof
runnable.invoke !== 'function') throw ...`, iterating entries in order. -/
def validateEntries : List (String × JSVal) → Except String Unit
  | [] => .ok ()
  | (name, v) :: rest =>
    if !v.truthy || (v.getProp "invoke").typeof != "function" then
      .error (propertyError name)
    else
      validateEntries rest

/-- `new RunnableParallel(options = {})`: an `undefined` argument is replaced
by the default `{}`; then `typeof options !== 'object' || Array.isArray
(options)` throws; then `Object.keys` (a `TypeError` on `null`); then each
entry is validated.  On success the constructor stores the entries (name,
runnable) in insertion order. -/
def RunnableParallel.construct (optionsArg : JSVal) : Except String (List (String × JSVal)) :=
  let options := match optionsArg with
    | .undefv => JSVal.objv []
    | v => v
  if options.typeof != "object" || options.isArray then
    .error "RunnableParallel requires an object of named Runnables"
  else
    match options with
    | .objv entries => (validateEntries entries).map (fun _ => entries)
    | _ => .error "TypeError: Cannot convert undefined or null to object"

/-- The well-formedness the spec calls "a plain mapping of name to Task":
a plain object each of whose values is truthy and has an `invoke` function. -/
def isPlainRunnableMap : JSVal → Bool
  | .objv entries =>
    entries.all (fun p => p.2.truthy && (p.2.getProp "invoke").typeof == "function")
  | _ => false

/-- A child runnable's observable `invoke` behaviour: the value (or error)
its returned promise settles to, as a function of input and config. -/
abbrev BranchFun (α β ε : Type) := α → RunnableConfig → Except ε β

/-- A constructed `RunnableParallel`: its named runnables in insertion
(construction) order, with names unique by object-key semantics. -/
abbrev ParGroup (α β ε : Type) := List (String × BranchFun α β ε)

/-- Association-list lookup by name (first match). -/
def lookupName {β : Type} (n : String) : List (String × β) → Option β
  | [] => none
  | p :: rest => if p.1 = n then some p.2 else lookupName n rest

/-- The join loop of `_call`: `for (name, promise) of entries» results[name]
= await promise`.  Each promise is a completion time paired with its settled
outcome; `await` returns the outcome whatever the time, and a rejection
aborts the loop, rethrowing the child's error unchanged. -/
def awaitAll {β ε : Type} : List (String × Nat × Except ε β) → Except ε (List (String × β))
  | [] => .ok []
  | (_, _, .error e) :: _ => .error e
  | (n, _, .ok v) :: rest => (awaitAll rest).map (fun acc => (n, v) :: acc)

/-- `RunnableParallel._call(input, config)`: start every runnable on the same
`input` and the same `config` object (line 52 of the source passes `config`
itself, no `child()` derivation), then await all in insertion order.
`sched` assigns each branch its abstract completion time. -/
def RunnableParallel.call {α β ε : Type} (g : ParGroup α β ε) (sched : String → Nat)
    (input : α) (config : RunnableConfig) : Except ε (List (String × β)) :=
  awaitAll (g.map (fun p => (p.1, sched p.1, p.2 input config)))

/-- The settle time of `Promise.race` over the pending entries: the earliest
completion time among them. -/
def raceTime (t : String → Nat) : List String → Nat
  | [] => 0
  | [n] => t n
  | n :: rest => min (t n) (raceTime t rest)

/-- The winner of `Promise.race`: among the pending promises achieving the
earliest settle time, the first in `Object.entries` order (entry order of
remaining keys is insertion order, deletion does not reorder). -/
def raceWinner (t : String → Nat) (pending : List String) : Option String :=
  pending.find? (fun n => t n == raceTime t pending)

/-- Stable insertion of an entry behind all entries of equal-or-earlier
completion time; used to order resolutions temporally. -/
def insertByTime {β : Type} (t : String → Nat) (p : String × β) :
    List (String × β) → List (String × β)
  | [] => [p]
  | q :: rest => if t q.1 ≤ t p.1 then q :: insertByTime t p rest else p :: q :: rest

/-- The entries sorted stably by completion time: the temporal order in which
the `then(result => { results[name] = result })` recorders fire. -/
def settleSeq {β : Type} (t : String → Nat) (settled : List (String × β)) :
    List (String × β) :=
  settled.foldl (fun acc p => insertByTime t p acc) []

/-- The entries whose invocation resolves (a rejected branch's recorder never
fires, so it never enters `results`). -/
def resolvedEntries {β ε : Type} (outcomes : List (String × Except ε β)) :
    List (String × β) :=
  outcomes.filterMap (fun p =>
    match p.2 with
    | .ok v => some (p.1, v)
    | .error _ => none)

/-- One full run of the `_stream` race loop.  `fuel` is the loop counter
bound `completed < runnableNames.length`; `pending` the keys still in
`promises`.  Each iteration races the pending promises: at the race's settle
time `T` the winner is read; a rejecting winner makes `await nextPromise`
throw (second component), otherwise the loop yields a copy of `results`,
which then holds every resolved branch whose recorder fired by `T`, in
temporal order, and deletes the winner. -/
def streamLoopAux {β ε : Type} (t : String → Nat) (outcomes : List (String × Except ε β)) :
    Nat → List String → List (List (String × β)) × Option ε
  | 0, _ => ([], none)
  | _ + 1, [] => ([], none)
  | fuel + 1, pending =>
    match raceWinner t pending with
    | none => ([], none)
    | some w =>
      match lookupName w outcomes with
      | none => ([], none)
      | some (.error e) => ([], some e)
      | some (.ok _) =>
        let snap := (settleSeq t (resolvedEntries outcomes)).filter
          (fun p => decide (t p.1 ≤ raceTime t pending))
        let rest := streamLoopAux t outcomes fuel (pending.erase w)
        (snap :: rest.1, rest.2)

/-- `RunnableParallel._stream(input, config)`: start every runnable on the
same `input` and `config` (line 77 passes `config` itself), then run the race
loop `runnableNames.length` times.  The result is the list of yielded
snapshots in order, plus the error the generator throws, if any. -/
def RunnableParallel.stream {α β ε : Type} (g : ParGroup α β ε) (sched : String → Nat)
    (input : α) (config : RunnableConfig) : List (List (String × β)) × Option ε :=
  streamLoopAux sched (g.map (fun p => (p.1, p.2 input config))) g.length (g.map (fun p => p.1))

/-- The sequence of race winners, in the order the loop removes them. -/
def raceOrder (t : String → Nat) : Nat → List String → List String
  | 0, _ => []
  | _ + 1, [] => []
  | fuel + 1, pending =>
    match raceWinner t pending with
    | none => []
    | some w => w :: raceOrder t fuel (pending.erase w)

/-- The first rejection `Promise.all` observes: among rejected elements, the
one of earliest completion time, ties broken by position (handlers are
attached in array order). -/
def firstRejection {ε γ : Type} : List (Nat × Except ε γ) → Option (Nat × ε)
  | [] => none
  | (_, .ok _) :: rest => firstRejection rest
  | (tm, .error e) :: rest =>
    match firstRejection rest with
    | none => some (tm, e)
    | some (tm', e') => if tm' < tm then some (tm', e') else some (tm, e)

/-- `Promise.all`: rejects with the first rejection observed, otherwise
resolves to the values in array order (independent of completion times). -/
def promiseAll {ε γ : Type} (ps : List (Nat × Except ε γ)) : Except ε (List γ) :=
  match firstRejection ps with
  | some (_, e) => .error e
  | none => .ok (ps.filterMap (fun p =>
      match p.2 with
      | .ok v => some v
      | .error _ => none))

/-- `RunnableParallel.batch(inputs, config)`: `Promise.all(inputs.map(input
=> this._call(input, config)))`.  `esched` assigns each input element's run
its abstract completion time. -/
def RunnableParallel.batch {α β ε : Type} (g : ParGroup α β ε) (sched : String → Nat)
    (esched : α → Nat) (inputs : List α) (config : RunnableConfig) :
    Except ε (List (List (String × β))) :=
  promiseAll (inputs.map (fun x => (esched x, RunnableParallel.call g sched x config)))

/-- A heap instrumentation of the `_stream` generator, making object identity
explicit: `store` maps an address (list index) to the current contents of the
object it holds; address `0` is the mutable `results` object, higher
addresses are the snapshots allocated by `yield { ...results }`.  `yields`
lists the addresses handed to the consumer, in yield order. -/
structure StreamHeap (β : Type) where
  store : List (List (String × β))
  yields : List Nat
deriving DecidableEq

/-- `results[name] = result`: mutate the object at address `0` in place. -/
def writeSlot0 {β : Type} (store : List (List (String × β))) (p : String × β) :
    List (List (String × β)) :=
  match store with
  | [] => []
  | r :: rest => (r ++ [p]) :: rest

/-- The current contents of the `results` object. -/
def slot0 {β : Type} (store : List (List (String × β))) : List (String × β) :=
  match store with
  | [] => []
  | r :: _ => r

/-- `yield { ...results }`: allocate a fresh object at a fresh address, copy
the current `results` contents into it, and hand that address out. -/
def heapYield {β : Type} (h : StreamHeap β) : StreamHeap β :=
  { store := h.store ++ [slot0 h.store], yields := h.yields ++ [h.store.length] }

/-- The race loop of `_stream` over the instrumented heap.  `unrec` holds the
resolved entries whose recorder has not yet fired, in temporal order; when the
race settles at time `T`, every recorder with time up to `T` has written into
the `results` object (address `0`), and the loop then yields a fresh copy. -/
def heapLoop {β : Type} (t : String → Nat) :
    Nat → List String → List (String × β) → StreamHeap β → StreamHeap β
  | 0, _, _, h => h
  | _ + 1, [], _, h => h
  | fuel + 1, pending, unrec, h =>
    match raceWinner t pending with
    | none => h
    | some w =>
      let T := raceTime t pending
      let newly := unrec.filter (fun p => decide (t p.1 ≤ T))
      let keep := unrec.filter (fun p => !decide (t p.1 ≤ T))
      let h1 : StreamHeap β := { h with store := newly.foldl writeSlot0 h.store }
      heapLoop t fuel (pending.erase w) keep (heapYield h1)

/-- `RunnableParallel._stream(input, config)` over the instrumented heap:
start from a single empty `results` object at address `0` and run the race
loop `runnableNames.length` times. -/
def RunnableParallel.streamHeap {α β ε : Type} (g : ParGroup α β ε) (sched : String → Nat)
    (input : α) (config : RunnableConfig) : StreamHeap β :=
  heapLoop sched g.length (g.map (fun p => p.1))
    (settleSeq sched (resolvedEntries (g.map (fun p => (p.1, p.2 input config)))))
    { store := [[]], yields := [] }

/-! Concrete instances used to witness or refute the claims. -/

/-- A config with recursion budget 5. -/
def cfg5 : RunnableConfig := { callbacks := [], metadata := [], tags := [], recursionLimit := 5 }

/-- A two-branch group whose branches resolve to 1 and 2. -/
def gEx : ParGroup Unit Nat String :=
  [("f", fun _ _ => .ok 1), ("g", fun _ _ => .ok 2)]

/-- A three-branch group mirroring the spec's latency example. -/
def gFGH : ParGroup Unit Nat String :=
  [("f", fun _ _ => .ok 10), ("g", fun _ _ => .ok 20), ("h", fun _ _ => .ok 30)]

/-- Everything settles immediately. -/
def sched0 : String → Nat := fun _ => 0

/-- The spec's latencies: `f` delayed 400, `g` delayed 200, `h` immediate. -/
def schedFGH : String → Nat :=
  fun n => if n = "f" then 400 else if n = "g" then 200 else 0

/-- A group whose first branch rejects (name `a`). -/
def cexGroupA : ParGroup Unit Nat String :=
  [("a", fun _ _ => .error "boom"), ("b", fun _ _ => .ok 1)]

/-- The same behaviours under different branch names (`x` rejects). -/
def cexGroupB : ParGroup Unit Nat String :=
  [("x", fun _ _ => .error "boom"), ("y", fun _ _ => .ok 1)]

/-- A branch that reports the `recursionLimit` of the config it receives. -/
def probeGroup : ParGroup Unit Nat String :=
  [("probe", fun _ c => .ok c.recursionLimit)]

/-- A group with two rejecting branches after one resolving branch. -/
def twoFailGroup : ParGroup Unit Nat String :=
  [("ok0", fun _ _ => .ok 0), ("e1", fun _ _ => .error "first"),
   ("e2", fun _ _ => .error "second")]

/-- A schedule on which the later-constructed rejecting branch settles first. -/
def schedLateFirst : String → Nat :=
  fun n => if n = "e2" then 0 else if n = "e1" then 100 else 50

/-! Lemmas about association-list lookup. -/

theorem lookupName_eq_none_iff {β : Type} {n : String} {l : List (String × β)} :
    lookupName n l = none ↔ n ∉ l.map Prod.fst := by
  induction l with
  | nil => simp [lookupName]
  | cons p rest ih =>
    by_cases h : p.1 = n
    · simp [lookupName, h]
    · have hne : ¬n = p.1 := fun he => h he.symm
      simp [lookupName, h, ih, hne]

theorem mem_of_lookupName_eq_some {β : Type} {n : String} {v : β} {l : List (String × β)}
    (h : lookupName n l = some v) : (n, v) ∈ l := by
  induction l with
  | nil => simp [lookupName] at h
  | cons p rest ih =>
    obtain ⟨a, b⟩ := p
    by_cases hp : a = n
    · subst hp
      simp [lookupName] at h
      subst h
      exact List.mem_cons_self _ _
    · simp only [lookupName, if_neg hp] at h
      exact List.mem_cons_of_mem _ (ih h)

theorem lookupName_eq_some_of_mem {β : Type} {n : String} {v : β} {l : List (String × β)}
    (hnd : (l.map Prod.fst).Nodup) (hmem : (n, v) ∈ l) : lookupName n l = some v := by
  induction l with
  | nil => simp at hmem
  | cons p rest ih =>
    simp only [List.map_cons, List.nodup_cons] at hnd
    rcases List.mem_cons.mp hmem with hh | ht
    · subst hh
      simp [lookupName]
    · have hne : p.1 ≠ n := by
        intro he
        exact hnd.1 (he ▸ (List.mem_map.mpr ⟨(n, v), ht, rfl⟩))
      simp [lookupName, hne, ih hnd.2 ht]

theorem lookupName_of_mem_keys {β : Type} {n : String} {l : List (String × β)}
    (h : n ∈ l.map Prod.fst) : ∃ v, lookupName n l = some v ∧ (n, v) ∈ l := by
  induction l with
  | nil => simp at h
  | cons p rest ih =>
    obtain ⟨a, b⟩ := p
    by_cases hp : a = n
    · subst hp
      exact ⟨b, by simp [lookupName], List.mem_cons_self _ _⟩
    · simp only [List.map_cons, List.mem_cons] at h
      rcases h with he | ht
      · exact absurd he.symm hp
      · obtain ⟨v, hv, hm⟩ := ih ht
        exact ⟨v, by simp [lookupName, hp, hv], List.mem_cons_of_mem _ hm⟩

theorem lookupName_perm {β : Type} {l l' : List (String × β)}
    (hnd : (l.map Prod.fst).Nodup) (hp : l.Perm l') (n : String) :
    lookupName n l = lookupName n l' := by
  have hnd' : (l'.map Prod.fst).Nodup := ((hp.map Prod.fst).nodup_iff).mp hnd
  cases h : lookupName n l with
  | some v =>
    exact (lookupName_eq_some_of_mem hnd' (hp.mem_iff.mp (mem_of_lookupName_eq_some h))).symm
  | none =>
    have : n ∉ l'.map Prod.fst := fun hm =>
      (lookupName_eq_none_iff.mp h) (((hp.map Prod.fst).mem_iff).mpr hm)
    exact (lookupName_eq_none_iff.mpr this).symm

/-! Lemmas about the `_call` join loop. -/

theorem call_ok_of_resolved {α β ε : Type} (g : ParGroup α β ε) (sched : String → Nat)
    (input : α) (config : RunnableConfig)
    (hok : ∀ p ∈ g, ∃ v, p.2 input config = Except.ok v) :
    RunnableParallel.call g sched input config =
      .ok (resolvedEntries (g.map (fun p => (p.1, p.2 input config)))) := by
  induction g with
  | nil => rfl
  | cons p rest ih =>
    obtain ⟨v, hv⟩ := hok p (List.mem_cons_self p rest)
    have ih' := ih (fun q hq => hok q (List.mem_cons_of_mem p hq))
    simp only [RunnableParallel.call, List.map_cons, awaitAll, hv] at ih' ⊢
    simp [ih', resolvedEntries, Except.map]

theorem call_sched_irrel {α β ε : Type} (g : ParGroup α β ε) (sched sched' : String → Nat)
    (input : α) (config : RunnableConfig) :
    RunnableParallel.call g sched input config = RunnableParallel.call g sched' input config := by
  induction g with
  | nil => rfl
  | cons p rest ih =>
    simp only [RunnableParallel.call, List.map_cons] at ih ⊢
    cases hr : p.2 input config with
    | error e => simp [awaitAll, hr]
    | ok v => simp [awaitAll, hr, ih]

theorem call_error_first {α β ε : Type} (g₁ g₂ : ParGroup α β ε) (n : String)
    (f : BranchFun α β ε) (sched : String → Nat) (input : α) (config : RunnableConfig) (e : ε)
    (hok : ∀ p ∈ g₁, ∃ v, p.2 input config = Except.ok v)
    (herr : f input config = .error e) :
    RunnableParallel.call (g₁ ++ (n, f) :: g₂) sched input config = .error e := by
  induction g₁ with
  | nil => simp [RunnableParallel.call, awaitAll, herr]
  | cons p rest ih =>
    obtain ⟨v, hv⟩ := hok p (List.mem_cons_self p rest)
    have ih' := ih (fun q hq => hok q (List.mem_cons_of_mem p hq))
    simp only [RunnableParallel.call, List.map_cons, List.map_append, List.cons_append,
      awaitAll, hv] at ih' ⊢
    simp [ih', Except.map]

theorem call_error_src {α β ε : Type} (g : ParGroup α β ε) (sched : String → Nat)
    (input : α) (config : RunnableConfig) (e : ε)
    (h : RunnableParallel.call g sched input config = .error e) :
    ∃ p ∈ g, p.2 input config = .error e := by
  induction g with
  | nil => simp [RunnableParallel.call, awaitAll] at h
  | cons p rest ih =>
    cases hr : p.2 input config with
    | error e' =>
      simp only [RunnableParallel.call, List.map_cons, awaitAll, hr] at h
      cases h
      exact ⟨p, List.mem_cons_self p rest, hr⟩
    | ok v =>
      simp only [RunnableParallel.call, List.map_cons, awaitAll, hr] at h
      cases hrest : awaitAll (rest.map fun p => (p.1, sched p.1, p.2 input config)) with
      | error e'' =>
        rw [hrest] at h
        simp [Except.map] at h
        obtain ⟨q, hq, hqe⟩ := ih (h ▸ hrest)
        exact ⟨q, List.mem_cons_of_mem p hq, hqe⟩
      | ok out =>
        rw [hrest] at h
        simp [Except.map] at h

/-! Lemmas about the race primitive. -/

theorem raceTime_cons_cons (t : String → Nat) (a b : String) (l : List String) :
    raceTime t (a :: b :: l) = min (t a) (raceTime t (b :: l)) := rfl

theorem raceTime_le {t : String → Nat} :
    ∀ (pending : List String), ∀ n ∈ pending, raceTime t pending ≤ t n
  | [], n, hn => by simp at hn
  | [m], n, hn => by
    simp at hn
    subst hn
    exact Nat.le_refl _
  | a :: b :: l, n, hn => by
    rcases List.mem_cons.mp hn with h | h
    · subst h
      exact min_le_left _ _
    · exact le_trans (min_le_right _ _) (raceTime_le (b :: l) n h)

theorem raceTime_attained {t : String → Nat} :
    ∀ (pending : List String), pending ≠ [] → ∃ n ∈ pending, t n = raceTime t pending
  | [], h => absurd rfl h
  | [m], _ => ⟨m, by simp, rfl⟩
  | a :: b :: l, _ => by
    rcases le_total (t a) (raceTime t (b :: l)) with h | h
    · exact ⟨a, List.mem_cons_self _ _, by rw [raceTime_cons_cons, min_eq_left h]⟩
    · obtain ⟨n, hn, he⟩ := raceTime_attained (b :: l) (by simp)
      exact ⟨n, List.mem_cons_of_mem _ hn, by rw [raceTime_cons_cons, min_eq_right h]; exact he⟩

theorem raceWinner_mem {t : String → Nat} {pending : List String} {w : String}
    (h : raceWinner t pending = some w) : w ∈ pending ∧ t w = raceTime t pending := by
  refine ⟨List.mem_of_find?_eq_some h, ?_⟩
  have := List.find?_some h
  simpa using this

theorem raceWinner_of_ne_nil {t : String → Nat} {pending : List String} (h : pending ≠ []) :
    ∃ w, raceWinner t pending = some w := by
  obtain ⟨n, hn, he⟩ := raceTime_attained (t := t) pending h
  cases hw : raceWinner t pending with
  | some w => exact ⟨w, rfl⟩
  | none =>
    have := List.find?_eq_none.mp hw n hn
    simp [he] at this

theorem raceOrder_subset {t : String → Nat} :
    ∀ (fuel : Nat) (pending : List String), ∀ x ∈ raceOrder t fuel pending, x ∈ pending
  | 0, pending => by simp [raceOrder]
  | fuel + 1, [] => by simp [raceOrder]
  | fuel + 1, a :: l => by
    cases hw : raceWinner t (a :: l) with
    | none => simp [raceOrder, hw]
    | some w =>
      intro x hx
      simp only [raceOrder, hw] at hx
      rcases List.mem_cons.mp hx with h | h
      · subst h
        exact (raceWinner_mem hw).1
      · exact List.erase_subset _ _ (raceOrder_subset fuel ((a :: l).erase w) x h)

theorem raceOrder_perm {t : String → Nat} :
    ∀ (fuel : Nat) (pending : List String), pending.length = fuel →
      (raceOrder t fuel pending).Perm pending
  | 0, pending, h => by
    have : pending = [] := List.length_eq_zero.mp h
    subst this
    simp [raceOrder]
  | fuel + 1, [], h => by simp at h
  | fuel + 1, a :: l, h => by
    cases hw : raceWinner t (a :: l) with
    | none =>
      obtain ⟨w, hw'⟩ := raceWinner_of_ne_nil (t := t) (List.cons_ne_nil a l)
      rw [hw] at hw'
      cases hw'
    | some w =>
      have hmem := (raceWinner_mem hw).1
      have hlen : ((a :: l).erase w).length = fuel := by
        rw [List.length_erase_of_mem hmem]
        simp at h ⊢
        omega
      have hro : raceOrder t (fuel + 1) (a :: l) = w :: raceOrder t fuel ((a :: l).erase w) := by
        simp [raceOrder, hw]
      rw [hro]
      exact ((raceOrder_perm fuel _ hlen).cons w).trans (List.perm_cons_erase hmem).symm

theorem raceOrder_pairwise {t : String → Nat} :
    ∀ (fuel : Nat) (pending : List String),
      (raceOrder t fuel pending).Pairwise (fun a b => t a ≤ t b)
  | 0, pending => by simp [raceOrder]
  | fuel + 1, [] => by simp [raceOrder]
  | fuel + 1, a :: l => by
    cases hw : raceWinner t (a :: l) with
    | none => simp [raceOrder, hw]
    | some w =>
      have hro : raceOrder t (fuel + 1) (a :: l) = w :: raceOrder t fuel ((a :: l).erase w) := by
        simp [raceOrder, hw]
      rw [hro]
      refine List.Pairwise.cons ?_ (raceOrder_pairwise fuel _)
      intro x hx
      have hxp : x ∈ a :: l := List.erase_subset _ _ (raceOrder_subset fuel _ x hx)
      rw [(raceWinner_mem hw).2]
      exact raceTime_le _ x hxp

theorem pairwise_le_getLast {t : String → Nat} :
    ∀ {l : List String}, l.Pairwise (fun a b => t a ≤ t b) →
      ∀ {b : String}, l.getLast? = some b → ∀ x ∈ l, t x ≤ t b
  | [], _, b, hb => by simp at hb
  | [a], _, b, hb => by
    simp at hb
    subst hb
    intro x hx
    simp at hx
    subst hx
    exact Nat.le_refl _
  | a :: c :: m, hpw, b, hb => by
    have hb' : (c :: m).getLast? = some b := by
      simpa [List.getLast?_cons_cons] using hb
    have hpw' := List.Pairwise.sublist (List.sublist_cons_self a (c :: m)) hpw
    intro x hx
    rcases List.mem_cons.mp hx with h | h
    · subst h
      have hbmem : b ∈ c :: m := by
        have hbo : b ∈ (c :: m).getLast? := by simp [Option.mem_def, hb']
        obtain ⟨hne, rfl⟩ := List.mem_getLast?_eq_getLast hbo
        exact List.getLast_mem hne
      exact (List.pairwise_cons.mp hpw).1 b hbmem
    · exact pairwise_le_getLast hpw' hb' x h

/-! Lemmas about the settle order and the recorded results. -/

theorem insertByTime_perm {β : Type} (t : String → Nat) (p : String × β) :
    ∀ (l : List (String × β)), (insertByTime t p l).Perm (p :: l)
  | [] => List.Perm.refl _
  | q :: rest => by
    unfold insertByTime
    by_cases h : t q.1 ≤ t p.1
    · simp only [if_pos h]
      exact ((insertByTime_perm t p rest).cons q).trans (List.Perm.swap p q rest)
    · simp only [if_neg h]
      exact List.Perm.refl _

theorem settleSeq_perm {β : Type} (t : String → Nat) (l : List (String × β)) :
    (settleSeq t l).Perm l := by
  suffices h : ∀ acc, ((l.foldl (fun acc p => insertByTime t p acc) acc)).Perm (acc ++ l) by
    simpa using h []
  induction l with
  | nil => intro acc; simp
  | cons p rest ih =>
    intro acc
    simp only [List.foldl_cons]
    refine (ih (insertByTime t p acc)).trans ?_
    refine (List.Perm.append_right rest (insertByTime_perm t p acc)).trans ?_
    simpa using List.perm_middle.symm

theorem resolvedEntries_keys_of_ok {β ε : Type} :
    ∀ (outcomes : List (String × Except ε β)),
      (∀ p ∈ outcomes, ∃ v, p.2 = Except.ok v) →
      (resolvedEntries outcomes).map Prod.fst = outcomes.map Prod.fst
  | [], _ => rfl
  | p :: rest, h => by
    obtain ⟨v, hv⟩ := h p (List.mem_cons_self p rest)
    have ih := resolvedEntries_keys_of_ok rest (fun q hq => h q (List.mem_cons_of_mem p hq))
    simp [resolvedEntries, hv] at ih ⊢
    exact ih

theorem mem_resolvedEntries_of_ok {β ε : Type} {outcomes : List (String × Except ε β)}
    {n : String} {v : β} (h : (n, Except.ok v) ∈ outcomes) :
    (n, v) ∈ resolvedEntries outcomes := by
  refine List.mem_filterMap.mpr ⟨(n, Except.ok v), h, rfl⟩

theorem of_mem_resolvedEntries {β ε : Type} {outcomes : List (String × Except ε β)}
    {n : String} {v : β} (h : (n, v) ∈ resolvedEntries outcomes) :
    (n, Except.ok v) ∈ outcomes := by
  obtain ⟨p, hp, he⟩ := List.mem_filterMap.mp h
  obtain ⟨a, b⟩ := p
  cases b with
  | error e => simp at he
  | ok u =>
    simp at he
    obtain ⟨h1, h2⟩ := he
    subst h1
    subst h2
    exact hp

theorem lookupName_isSome_iff {β : Type} {n : String} {l : List (String × β)} :
    (lookupName n l).isSome ↔ n ∈ l.map Prod.fst := by
  constructor
  · intro h
    obtain ⟨v, hv⟩ := Option.isSome_iff_exists.mp h
    exact List.mem_map.mpr ⟨(n, v), mem_of_lookupName_eq_some hv, rfl⟩
  · intro h
    obtain ⟨v, hv, _⟩ := lookupName_of_mem_keys h
    simp [hv]

theorem lookupName_filter_le {β : Type} {t : String → Nat} {s : List (String × β)}
    (hnd : (s.map Prod.fst).Nodup) {T1 T2 : Nat} (hT : T1 ≤ T2) {n : String} {v : β}
    (h : lookupName n (s.filter (fun p => decide (t p.1 ≤ T1))) = some v) :
    lookupName n (s.filter (fun p => decide (t p.1 ≤ T2))) = some v := by
  have hm := mem_of_lookupName_eq_some h
  have hm' := List.mem_filter.mp hm
  have h1 : t n ≤ T1 := by simpa using hm'.2
  have hnd2 : ((s.filter (fun p => decide (t p.1 ≤ T2))).map Prod.fst).Nodup :=
    List.Nodup.sublist (List.Sublist.map Prod.fst (List.filter_sublist s)) hnd
  exact lookupName_eq_some_of_mem hnd2
    (List.mem_filter.mpr ⟨hm'.1, by simpa using le_trans h1 hT⟩)

/-! The race loop of `_stream`, characterised when every branch resolves:
the yields are, in winner order, the temporally-accumulated snapshots. -/

theorem streamLoopAux_resolved {β ε : Type} (t : String → Nat)
    (outcomes : List (String × Except ε β)) :
    ∀ (fuel : Nat) (pending : List String),
      (∀ n ∈ pending, ∃ v, lookupName n outcomes = some (Except.ok v)) →
      streamLoopAux t outcomes fuel pending =
        ((raceOrder t fuel pending).map (fun w =>
          (settleSeq t (resolvedEntries outcomes)).filter
            (fun p => decide (t p.1 ≤ t w))), none)
  | 0, pending, _ => by simp [streamLoopAux, raceOrder]
  | fuel + 1, [], _ => by simp [streamLoopAux, raceOrder]
  | fuel + 1, a :: l, hres => by
    cases hw : raceWinner t (a :: l) with
    | none =>
      obtain ⟨w, hw'⟩ := raceWinner_of_ne_nil (t := t) (List.cons_ne_nil a l)
      rw [hw] at hw'
      cases hw'
    | some w =>
      obtain ⟨v, hv⟩ := hres w (raceWinner_mem hw).1
      have ih := streamLoopAux_resolved t outcomes fuel ((a :: l).erase w)
        (fun n hn => hres n (List.erase_subset _ _ hn))
      have hT : t w = raceTime t (a :: l) := (raceWinner_mem hw).2
      simp only [streamLoopAux, raceOrder, hw, hv, ih, List.map_cons, hT]

theorem getLast?_map {A B : Type} (f : A → B) :
    ∀ (l : List A), (l.map f).getLast? = l.getLast?.map f
  | [] => rfl
  | [_] => rfl
  | a :: b :: l => by
    rw [List.map_cons, List.map_cons, List.getLast?_cons_cons, List.getLast?_cons_cons,
      ← List.map_cons]
    exact getLast?_map f (b :: l)

theorem outcomes_keys {α β ε : Type} (g : ParGroup α β ε) (input : α) (config : RunnableConfig) :
    (g.map (fun p => (p.1, p.2 input config))).map Prod.fst = g.map Prod.fst := by
  induction g with
  | nil => rfl
  | cons p rest ih => simp [ih]

theorem outcomes_all_ok {α β ε : Type} {g : ParGroup α β ε} {input : α} {config : RunnableConfig}
    (hok : ∀ p ∈ g, ∃ v, p.2 input config = Except.ok v) :
    ∀ q ∈ g.map (fun p => (p.1, p.2 input config)), ∃ v, q.2 = Except.ok v := by
  intro q hq
  obtain ⟨p, hp, he⟩ := List.mem_map.mp hq
  obtain ⟨v, hv⟩ := hok p hp
  exact ⟨v, by rw [← he]; exact hv⟩

theorem stream_yields_eq {α β ε : Type} (g : ParGroup α β ε) (sched : String → Nat) (input : α)
    (config : RunnableConfig)
    (hok : ∀ p ∈ g, ∃ v, p.2 input config = Except.ok v) :
    RunnableParallel.stream g sched input config =
      ((raceOrder sched g.length (g.map Prod.fst)).map (fun w =>
        (settleSeq sched (resolvedEntries (g.map (fun p => (p.1, p.2 input config))))).filter
          (fun p => decide (sched p.1 ≤ sched w))), none) := by
  have hres : ∀ n ∈ g.map Prod.fst,
      ∃ v, lookupName n (g.map (fun p => (p.1, p.2 input config))) = some (Except.ok v) := by
    intro n hn
    rw [← outcomes_keys g input config] at hn
    obtain ⟨r, hr, hmem⟩ := lookupName_of_mem_keys hn
    obtain ⟨p, hp, he⟩ := List.mem_map.mp hmem
    obtain ⟨v, hv⟩ := hok p hp
    refine ⟨v, ?_⟩
    rw [hr]
    have : r = p.2 input config := by
      have := congrArg Prod.snd he
      simpa using this.symm
    rw [this, hv]
  exact streamLoopAux_resolved sched _ g.length (g.map Prod.fst) hres

theorem stream_final_snapshot {α β ε : Type} (g : ParGroup α β ε) (sched : String → Nat)
    (input : α) (config : RunnableConfig)
    (hok : ∀ p ∈ g, ∃ v, p.2 input config = Except.ok v) (hne : g ≠ []) :
    (RunnableParallel.stream g sched input config).1.getLast? =
      some (settleSeq sched (resolvedEntries (g.map (fun p => (p.1, p.2 input config))))) := by
  have hkeyslen : (g.map Prod.fst).length = g.length := List.length_map g Prod.fst
  have hperm := raceOrder_perm (t := sched) g.length (g.map Prod.fst) hkeyslen
  have hrone : raceOrder sched g.length (g.map Prod.fst) ≠ [] := by
    intro h
    have := hperm.length_eq
    rw [h] at this
    simp [hkeyslen] at this
    exact hne (List.length_eq_zero.mp this.symm)
  obtain ⟨wl, hwl⟩ : ∃ wl, (raceOrder sched g.length (g.map Prod.fst)).getLast? = some wl := by
    cases h : (raceOrder sched g.length (g.map Prod.fst)).getLast? with
    | some w => exact ⟨w, rfl⟩
    | none => exact absurd (List.getLast?_eq_none_iff.mp h) hrone
  have hfull : (settleSeq sched (resolvedEntries (g.map (fun p => (p.1, p.2 input config))))).filter
      (fun p => decide (sched p.1 ≤ sched wl)) =
      settleSeq sched (resolvedEntries (g.map (fun p => (p.1, p.2 input config)))) := by
    refine List.filter_eq_self.mpr ?_
    intro p hp
    have hmem : p ∈ resolvedEntries (g.map (fun q => (q.1, q.2 input config))) :=
      (settleSeq_perm sched _).mem_iff.mp hp
    have hkey : p.1 ∈ g.map Prod.fst := by
      have h1 : p.1 ∈ (resolvedEntries (g.map (fun q => (q.1, q.2 input config)))).map Prod.fst :=
        List.mem_map.mpr ⟨p, hmem, rfl⟩
      rwa [resolvedEntries_keys_of_ok _ (outcomes_all_ok hok), outcomes_keys] at h1
    have hro : p.1 ∈ raceOrder sched g.length (g.map Prod.fst) := hperm.mem_iff.mpr hkey
    have := pairwise_le_getLast (raceOrder_pairwise g.length (g.map Prod.fst)) hwl p.1 hro
    simpa using this
  rw [stream_yields_eq g sched input config hok]
  simp only [getLast?_map, hwl, Option.map_some']
  rw [hfull]

/-! Lemmas about the instrumented heap: writes touch only address 0, yields
allocate strictly fresh addresses. -/

theorem writeSlot0_length {β : Type} (store : List (List (String × β))) (p : String × β) :
    (writeSlot0 store p).length = store.length := by
  cases store <;> rfl

theorem foldl_writeSlot0_length {β : Type} :
    ∀ (l : List (String × β)) (store : List (List (String × β))),
      (l.foldl writeSlot0 store).length = store.length
  | [], _ => rfl
  | p :: rest, store => by
    simp only [List.foldl_cons]
    rw [foldl_writeSlot0_length rest, writeSlot0_length]

theorem writeSlot0_getElem? {β : Type} (store : List (List (String × β))) (p : String × β)
    {a : Nat} (ha : 1 ≤ a) : (writeSlot0 store p)[a]? = store[a]? := by
  cases store with
  | nil => rfl
  | cons r rest =>
    cases a with
    | zero => simp at ha
    | succ a' => simp [writeSlot0]

theorem foldl_writeSlot0_getElem? {β : Type} :
    ∀ (l : List (String × β)) (store : List (List (String × β))) {a : Nat}, 1 ≤ a →
      (l.foldl writeSlot0 store)[a]? = store[a]?
  | [], _, _, _ => rfl
  | p :: rest, store, a, ha => by
    simp only [List.foldl_cons]
    rw [foldl_writeSlot0_getElem? rest _ ha, writeSlot0_getElem? _ _ ha]

theorem heapYield_getElem? {β : Type} (h : StreamHeap β) {a : Nat}
    (ha : a < h.store.length) : (heapYield h).store[a]? = h.store[a]? := by
  simp only [heapYield]
  rw [List.getElem?_append_left ha]

theorem heapLoop_preserves {β : Type} (t : String → Nat) :
    ∀ (fuel : Nat) (pending : List String) (unrec : List (String × β)) (h : StreamHeap β)
      (a : Nat), 1 ≤ a → a < h.store.length →
      (heapLoop t fuel pending unrec h).store[a]? = h.store[a]?
  | 0, _, _, _, _, _, _ => rfl
  | _ + 1, [], _, _, _, _, _ => rfl
  | fuel + 1, p :: l, unrec, h, a, h1, h2 => by
    cases hw : raceWinner t (p :: l) with
    | none => simp [heapLoop, hw]
    | some w =>
      have hlen : ((unrec.filter
          (fun q => decide (t q.1 ≤ raceTime t (p :: l)))).foldl writeSlot0 h.store).length =
          h.store.length := foldl_writeSlot0_length _ _
      have hstep := heapLoop_preserves t fuel ((p :: l).erase w)
        (unrec.filter (fun q => !decide (t q.1 ≤ raceTime t (p :: l))))
        (heapYield { h with store := (unrec.filter
          (fun q => decide (t q.1 ≤ raceTime t (p :: l)))).foldl writeSlot0 h.store })
        a h1 (by simp [heapYield]; omega)
      simp only [heapLoop, hw]
      rw [hstep, heapYield_getElem? _ (by simpa [hlen] using h2),
        foldl_writeSlot0_getElem? _ _ h1]

theorem heapLoop_yields_inv {β : Type} (t : String → Nat) :
    ∀ (fuel : Nat) (pending : List String) (unrec : List (String × β)) (h : StreamHeap β),
      h.yields.Pairwise (· < ·) → (∀ x ∈ h.yields, x < h.store.length) →
      (∀ x ∈ h.yields, 1 ≤ x) → 1 ≤ h.store.length →
      (heapLoop t fuel pending unrec h).yields.Pairwise (· < ·) ∧
        (∀ x ∈ (heapLoop t fuel pending unrec h).yields, 1 ≤ x)
  | 0, _, _, h, hpw, _, hone, _ => ⟨hpw, hone⟩
  | _ + 1, [], _, h, hpw, _, hone, _ => ⟨hpw, hone⟩
  | fuel + 1, p :: l, unrec, h, hpw, hbound, hone, hlen => by
    cases hw : raceWinner t (p :: l) with
    | none => exact ⟨by simpa [heapLoop, hw] using hpw, by simpa [heapLoop, hw] using hone⟩
    | some w =>
      have hlen1 : ((unrec.filter
          (fun q => decide (t q.1 ≤ raceTime t (p :: l)))).foldl writeSlot0 h.store).length =
          h.store.length := foldl_writeSlot0_length _ _
      simp only [heapLoop, hw]
      refine heapLoop_yields_inv t fuel _ _ _ ?_ ?_ ?_ ?_
      · simp only [heapYield, List.pairwise_append]
        refine ⟨hpw, List.pairwise_singleton _ _, ?_⟩
        intro x hx b hb
        simp at hb
        subst hb
        rw [hlen1]
        exact hbound x hx
      · intro x hx
        simp only [heapYield, List.mem_append, List.mem_singleton] at hx
        simp only [heapYield, List.length_append, List.length_singleton, hlen1]
        rcases hx with hx | hx
        · exact lt_trans (hbound x hx) (by omega)
        · subst hx
          rw [hlen1]
          omega
      · intro x hx
        simp only [heapYield, List.mem_append, List.mem_singleton] at hx
        rcases hx with hx | hx
        · exact hone x hx
        · subst hx
          rw [hlen1]
          exact hlen
      · simp only [heapYield, List.length_append, List.length_singleton]
        omega

/-! Lemmas about `Promise.all`. -/

theorem firstRejection_none {ε γ : Type} :
    ∀ (ps : List (Nat × Except ε γ)), (∀ p ∈ ps, ∃ v, p.2 = Except.ok v) →
      firstRejection ps = none
  | [], _ => rfl
  | (tm, r) :: rest, h => by
    obtain ⟨v, hv⟩ := h (tm, r) (List.mem_cons_self _ _)
    cases r with
    | error e => simp at hv
    | ok v' =>
      simp only [firstRejection]
      exact firstRejection_none rest (fun q hq => h q (List.mem_cons_of_mem _ hq))

theorem promiseAll_ok {ε γ : Type} (ps : List (Nat × Except ε γ))
    (h : ∀ p ∈ ps, ∃ v, p.2 = Except.ok v) :
    promiseAll ps = .ok (ps.filterMap (fun p =>
      match p.2 with
      | .ok v => some v
      | .error _ => none)) := by
  simp [promiseAll, firstRejection_none ps h]

theorem filterMap_ok_forall₂ {ε γ : Type} :
    ∀ (ps : List (Nat × Except ε γ)), (∀ p ∈ ps, ∃ v, p.2 = Except.ok v) →
      List.Forall₂ (fun (p : Nat × Except ε γ) (v : γ) => p.2 = Except.ok v) ps
        (ps.filterMap (fun p =>
          match p.2 with
          | .ok v => some v
          | .error _ => none))
  | [], _ => List.Forall₂.nil
  | (tm, r) :: rest, h => by
    obtain ⟨v, hv⟩ := h (tm, r) (List.mem_cons_self _ _)
    cases r with
    | error e => simp at hv
    | ok v' =>
      simp only [List.filterMap_cons]
      exact List.Forall₂.cons rfl
        (filterMap_ok_forall₂ rest (fun q hq => h q (List.mem_cons_of_mem _ hq)))

theorem firstRejection_some {ε γ : Type} :
    ∀ (ps : List (Nat × Except ε γ)) (p : Nat × Except ε γ), p ∈ ps →
      ∀ e, p.2 = Except.error e → ∃ q, firstRejection ps = some q
  | [], p, hp, _, _ => absurd hp (by simp)
  | (tm, r) :: rest, p, hp, e, he => by
    cases r with
    | error e' =>
      simp only [firstRejection]
      cases firstRejection rest with
      | none => exact ⟨(tm, e'), rfl⟩
      | some q' =>
        by_cases hlt : q'.1 < tm
        · exact ⟨q', by simp [hlt]⟩
        · exact ⟨(tm, e'), by simp [hlt]⟩
    | ok v =>
      rcases List.mem_cons.mp hp with hh | ht
      · subst hh
        simp at he
      · simp only [firstRejection]
        exact firstRejection_some rest p ht e he

theorem promiseAll_error {ε γ : Type} (ps : List (Nat × Except ε γ)) (p : Nat × Except ε γ)
    (hp : p ∈ ps) (e : ε) (he : p.2 = Except.error e) :
    ∃ e', promiseAll ps = .error e' := by
  obtain ⟨q, hq⟩ := firstRejection_some ps p hp e he
  exact ⟨q.2, by simp [promiseAll, hq]⟩

/-! Lemmas about the constructor's validation loop. -/

theorem validateEntries_error :
    ∀ (entries : List (String × JSVal)),
      entries.all (fun p => p.2.truthy && (p.2.getProp "invoke").typeof == "function") = false →
      ∃ msg, validateEntries entries = .error msg
  | [], h => by simp at h
  | (name, v) :: rest, h => by
    by_cases hv : (v.truthy && ((v.getProp "invoke").typeof == "function")) = true
    · have hrest : rest.all
          (fun p => p.2.truthy && (p.2.getProp "invoke").typeof == "function") = false := by
        simp only [List.all_cons, hv, Bool.true_and] at h
        exact h
      obtain ⟨msg, hmsg⟩ := validateEntries_error rest hrest
      refine ⟨msg, ?_⟩
      have hcond : (!v.truthy || (v.getProp "invoke").typeof != "function") = false := by
        rcases Bool.and_eq_true_iff.mp hv with ⟨h1, h2⟩
        simp [h1, h2, bne]
      simp [validateEntries, hcond, hmsg]
    · refine ⟨propertyError name, ?_⟩
      have hcond : (!v.truthy || (v.getProp "invoke").typeof != "function") = true := by
        cases ht : v.truthy <;> cases hf : ((v.getProp "invoke").typeof == "function") <;>
          simp_all [bne]
      simp [validateEntries, hcond]

theorem validateEntries_ok :
    ∀ (entries : List (String × JSVal)),
      entries.all (fun p => p.2.truthy && (p.2.getProp "invoke").typeof == "function") = true →
      validateEntries entries = .ok ()
  | [], _ => rfl
  | (name, v) :: rest, h => by
    simp only [List.all_cons, Bool.and_eq_true_iff] at h
    have hcond : (!v.truthy || (v.getProp "invoke").typeof != "function") = false := by
      rcases h.1 with ⟨h1, h2⟩
      simp [h1, h2, bne]
    simp only [validateEntries, hcond, Bool.false_eq_true, if_false]
    exact validateEntries_ok rest (by simp [h.2])

/-! Error sources of the three invocation paths: any error surfaced by
`_call`, `_stream` or `batch` is some branch's own error — the constructor's
configuration error can never arise at invocation time. -/

theorem streamLoopAux_error_src {β ε : Type} (t : String → Nat)
    (outcomes : List (String × Except ε β)) :
    ∀ (fuel : Nat) (pending : List String) (e : ε),
      (streamLoopAux t outcomes fuel pending).2 = some e →
      ∃ n, lookupName n outcomes = some (Except.error e)
  | 0, _, e, h => by simp [streamLoopAux] at h
  | _ + 1, [], e, h => by simp [streamLoopAux] at h
  | fuel + 1, a :: l, e, h => by
    cases hw : raceWinner t (a :: l) with
    | none => simp [streamLoopAux, hw] at h
    | some w =>
      cases hlk : lookupName w outcomes with
      | none => simp [streamLoopAux, hw, hlk] at h
      | some r =>
        cases r with
        | error e' =>
          simp only [streamLoopAux, hw, hlk] at h
          have he := Option.some.inj h
          subst he
          exact ⟨w, hlk⟩
        | ok v =>
          simp only [streamLoopAux, hw, hlk] at h
          exact streamLoopAux_error_src t outcomes fuel ((a :: l).erase w) e h

theorem stream_error_src {α β ε : Type} (g : ParGroup α β ε) (sched : String → Nat)
    (input : α) (config : RunnableConfig) (e : ε)
    (h : (RunnableParallel.stream g sched input config).2 = some e) :
    ∃ p ∈ g, p.2 input config = .error e := by
  have h' : (streamLoopAux sched (g.map fun p => (p.1, p.2 input config)) g.length
      (g.map fun p => p.1)).2 = some e := h
  obtain ⟨n, hn⟩ := streamLoopAux_error_src sched (g.map fun p => (p.1, p.2 input config))
    g.length (g.map fun p => p.1) e h'
  have hmem := mem_of_lookupName_eq_some hn
  obtain ⟨p, hp, he⟩ := List.mem_map.mp hmem
  refine ⟨p, hp, ?_⟩
  have := congrArg Prod.snd he
  simpa using this

theorem firstRejection_mem {ε γ : Type} :
    ∀ (ps : List (Nat × Except ε γ)) (q : Nat × ε), firstRejection ps = some q →
      ∃ p ∈ ps, p.2 = Except.error q.2
  | [], q, h => by simp [firstRejection] at h
  | (tm, r) :: rest, q, h => by
    cases r with
    | ok v =>
      simp only [firstRejection] at h
      obtain ⟨p, hp, he⟩ := firstRejection_mem rest q h
      exact ⟨p, List.mem_cons_of_mem _ hp, he⟩
    | error e' =>
      simp only [firstRejection] at h
      cases hrest : firstRejection rest with
      | none =>
        simp only [hrest] at h
        have hq := Option.some.inj h
        subst hq
        exact ⟨(tm, Except.error e'), List.mem_cons_self _ _, rfl⟩
      | some q' =>
        obtain ⟨qt, qe⟩ := q'
        simp only [hrest] at h
        by_cases hlt : qt < tm
        · rw [if_pos hlt] at h
          have hq := Option.some.inj h
          subst hq
          obtain ⟨p, hp, he⟩ := firstRejection_mem rest (qt, qe) hrest
          exact ⟨p, List.mem_cons_of_mem _ hp, he⟩
        · rw [if_neg hlt] at h
          have hq := Option.some.inj h
          subst hq
          exact ⟨(tm, Except.error e'), List.mem_cons_self _ _, rfl⟩

theorem promiseAll_error_src {ε γ : Type} (ps : List (Nat × Except ε γ)) (e : ε)
    (h : promiseAll ps = .error e) : ∃ p ∈ ps, p.2 = Except.error e := by
  cases hfr : firstRejection ps with
  | none => simp [promiseAll, hfr] at h
  | some q =>
    obtain ⟨tm, e'⟩ := q
    simp only [promiseAll, hfr] at h
    have he := Except.error.inj h
    subst he
    exact firstRejection_mem ps (tm, e') hfr

theorem batch_error_src {α β ε : Type} (g : ParGroup α β ε) (sched : String → Nat)
    (esched : α → Nat) (inputs : List α) (config : RunnableConfig) (e : ε)
    (h : RunnableParallel.batch g sched esched inputs config = .error e) :
    ∃ x ∈ inputs, ∃ p ∈ g, p.2 x config = .error e := by
  simp only [RunnableParallel.batch] at h
  obtain ⟨q, hq, he⟩ := promiseAll_error_src _ e h
  obtain ⟨x, hx, hxe⟩ := List.mem_map.mp hq
  refine ⟨x, hx, ?_⟩
  have h2 : RunnableParallel.call g sched x config = q.2 := by
    have := congrArg Prod.snd hxe
    simpa using this
  exact call_error_src g sched x config e (by rw [h2]; exact he)

/-! The yields of any `_stream` run — also one a rejecting branch later
aborts — are filters of one fixed settle sequence at nondecreasing time
thresholds. -/

theorem resolvedEntries_keys_sublist {β ε : Type} :
    ∀ (outcomes : List (String × Except ε β)),
      ((resolvedEntries outcomes).map Prod.fst).Sublist (outcomes.map Prod.fst)
  | [] => List.Sublist.refl _
  | (n, r) :: rest => by
    cases r with
    | error e =>
      simp only [resolvedEntries, List.filterMap_cons, List.map_cons]
      exact (resolvedEntries_keys_sublist rest).cons n
    | ok v =>
      simp only [resolvedEntries, List.filterMap_cons, List.map_cons]
      exact (resolvedEntries_keys_sublist rest).cons₂ n

theorem streamLoopAux_yields_shape {β ε : Type} (t : String → Nat)
    (outcomes : List (String × Except ε β)) :
    ∀ (fuel : Nat) (pending : List String),
      ∃ ws : List String, (∀ x ∈ ws, x ∈ pending) ∧
        ws.Pairwise (fun a b => t a ≤ t b) ∧
        (streamLoopAux t outcomes fuel pending).1 =
          ws.map (fun w => (settleSeq t (resolvedEntries outcomes)).filter
            (fun p => decide (t p.1 ≤ t w)))
  | 0, pending => ⟨[], by simp, List.Pairwise.nil, by simp [streamLoopAux]⟩
  | fuel + 1, [] => ⟨[], by simp, List.Pairwise.nil, by simp [streamLoopAux]⟩
  | fuel + 1, a :: l => by
    cases hw : raceWinner t (a :: l) with
    | none => exact ⟨[], by simp, List.Pairwise.nil, by simp [streamLoopAux, hw]⟩
    | some w =>
      cases hlk : lookupName w outcomes with
      | none => exact ⟨[], by simp, List.Pairwise.nil, by simp [streamLoopAux, hw, hlk]⟩
      | some r =>
        cases r with
        | error e =>
          exact ⟨[], by simp, List.Pairwise.nil, by simp [streamLoopAux, hw, hlk]⟩
        | ok v =>
          obtain ⟨ws', hsub, hpw, hys⟩ :=
            streamLoopAux_yields_shape t outcomes fuel ((a :: l).erase w)
          refine ⟨w :: ws', ?_, ?_, ?_⟩
          · intro x hx
            rcases List.mem_cons.mp hx with h | h
            · subst h
              exact (raceWinner_mem hw).1
            · exact List.erase_subset _ _ (hsub x h)
          · refine List.Pairwise.cons ?_ hpw
            intro x hx
            have hxp : x ∈ a :: l := List.erase_subset _ _ (hsub x hx)
            rw [(raceWinner_mem hw).2]
            exact raceTime_le _ x hxp
          · have hT : t w = raceTime t (a :: l) := (raceWinner_mem hw).2
            simp only [streamLoopAux, hw, hlk, List.map_cons, hys, hT]

theorem stream_yields_shape {α β ε : Type} (g : ParGroup α β ε) (sched : String → Nat)
    (input : α) (config : RunnableConfig) :
    ∃ ws : List String, ws.Pairwise (fun a b => sched a ≤ sched b) ∧
      (RunnableParallel.stream g sched input config).1 =
        ws.map (fun w => (settleSeq sched (resolvedEntries (g.map fun p =>
          (p.1, p.2 input config)))).filter (fun p => decide (sched p.1 ≤ sched w))) := by
  obtain ⟨ws, _, hpw, hys⟩ := streamLoopAux_yields_shape sched
    (g.map fun p => (p.1, p.2 input config)) g.length (g.map fun p => p.1)
  exact ⟨ws, hpw, hys⟩

/-! The claims. -/

/-- Claim C1: for every ParallelGroup built from a name-to-Task mapping and
every input on which all branches resolve, `_call` resolves to the mapping
from each name to that branch's result for the same input, keyed in the
mapping's construction (insertion) order, independently of the completion
schedule of the branches. -/
theorem parallel_call_fan_in {α β ε : Type} (g : ParGroup α β ε) (sched sched' : String → Nat)
    (input : α) (config : RunnableConfig)
    (hnd : (g.map Prod.fst).Nodup)
    (hok : ∀ p ∈ g, ∃ v, p.2 input config = Except.ok v) :
    RunnableParallel.call g sched input config = RunnableParallel.call g sched' input config ∧
    ∃ out, RunnableParallel.call g sched input config = .ok out ∧
      out.map Prod.fst = g.map Prod.fst ∧
      ∀ n f v, (n, f) ∈ g → f input config = .ok v → lookupName n out = some v := by
  refine ⟨call_sched_irrel g sched sched' input config, ?_⟩
  refine ⟨resolvedEntries (g.map (fun p => (p.1, p.2 input config))),
    call_ok_of_resolved g sched input config hok, ?_, ?_⟩
  · rw [resolvedEntries_keys_of_ok _ (outcomes_all_ok hok), outcomes_keys]
  · intro n f v hmem hv
    have hkeys : ((resolvedEntries (g.map fun p => (p.1, p.2 input config))).map Prod.fst).Nodup := by
      rw [resolvedEntries_keys_of_ok _ (outcomes_all_ok hok), outcomes_keys]
      exact hnd
    refine lookupName_eq_some_of_mem hkeys ?_
    exact mem_resolvedEntries_of_ok (List.mem_map.mpr ⟨(n, f), hmem, by simp [hv]⟩)

theorem parallel_call_fan_in_witness :
    RunnableParallel.call gFGH schedFGH () cfg5 = RunnableParallel.call gFGH sched0 () cfg5 :=
  (parallel_call_fan_in gFGH schedFGH sched0 () cfg5 (by decide)
    (by
      intro p hp
      simp only [gFGH, List.mem_cons] at hp
      rcases hp with rfl | rfl | rfl | hp
      · exact ⟨_, rfl⟩
      · exact ⟨_, rfl⟩
      · exact ⟨_, rfl⟩
      · simp at hp)).1

/-- Claim C2 counterexample: the claim says the rejection error carries the
identity of the failing branch name in addition to the child's error content.
In the code `results[name] = await promise` rethrows the child's error value
unchanged: two groups differing only in the failing branch's name (`a` versus
`x`) reject with the identical error value `"boom"`, which therefore cannot
identify the failing branch. -/
theorem parallel_call_error_unannotated_cex :
    RunnableParallel.call cexGroupA sched0 () cfg5 = .error "boom" ∧
    RunnableParallel.call cexGroupB sched0 () cfg5 = .error "boom" :=
  ⟨rfl, rfl⟩

/-- Claim C2 (amended): if some branch rejects, `_call` rejects — no partial
result map is returned — with the error of the earliest-constructed rejecting
branch, propagated unchanged and not annotated with the branch name. -/
theorem parallel_call_rejects_fail_fast {α β ε : Type} (g₁ g₂ : ParGroup α β ε) (n : String)
    (f : BranchFun α β ε) (sched : String → Nat) (input : α) (config : RunnableConfig) (e : ε)
    (hok : ∀ p ∈ g₁, ∃ v, p.2 input config = Except.ok v)
    (herr : f input config = .error e) :
    RunnableParallel.call (g₁ ++ (n, f) :: g₂) sched input config = .error e :=
  call_error_first g₁ g₂ n f sched input config e hok herr

theorem parallel_call_rejects_fail_fast_witness :
    RunnableParallel.call ([] ++ ("a", fun _ _ => Except.error "boom") ::
      [(("b" : String), fun (_ : Unit) (_ : RunnableConfig) => Except.ok (1 : Nat))])
      sched0 () cfg5 = .error "boom" :=
  parallel_call_rejects_fail_fast [] [("b", fun _ _ => Except.ok 1)] "a"
    (fun _ _ => Except.error "boom") sched0 () cfg5 "boom"
    (by intro p hp; simp at hp) rfl

/-- Claim C3 counterexample: the claim says every branch receives a config
derived via `config.child()`.  A probe branch reporting the `recursionLimit`
of the config it receives observes the parent's value 5 — not 4, which is what
a `child()`-derived copy would carry — under both `_call` and `_stream`
(source lines 52 and 77 pass `config` itself). -/
theorem parallel_config_not_child_cex :
    RunnableParallel.call probeGroup sched0 () cfg5 = .ok [("probe", 5)] ∧
    (RunnableParallel.stream probeGroup sched0 () cfg5).1 = [[("probe", 5)]] ∧
    (RunnableConfig.child cfg5).recursionLimit = 4 := by
  refine ⟨rfl, ?_, rfl⟩
  rfl

/-- Claim C3 (amended): every branch invocation performed by `_call` and by
`_stream` receives the parent's config object itself, shared across siblings:
replacing every branch by one that ignores the config it is handed and uses
the parent config instead changes nothing, whatever config the variant is run
under. -/
theorem parallel_config_shared_parent {α β ε : Type} (g : ParGroup α β ε)
    (sched : String → Nat) (input : α) (config config' : RunnableConfig) :
    RunnableParallel.call (g.map (fun p => (p.1, fun x (_ : RunnableConfig) => p.2 x config)))
        sched input config' = RunnableParallel.call g sched input config ∧
    RunnableParallel.stream (g.map (fun p => (p.1, fun x (_ : RunnableConfig) => p.2 x config)))
        sched input config' = RunnableParallel.stream g sched input config := by
  constructor
  · simp only [RunnableParallel.call, List.map_map]
    rfl
  · simp only [RunnableParallel.stream, List.map_map, List.length_map]
    rfl

/-- Claim C10: when more than one branch rejects, the error `_call` rejects
with is fixed by construction (insertion) order, not by completion order: it
is the error of the earliest-constructed rejecting branch (all of whose
earlier-constructed siblings resolve), identical under any two schedules. -/
theorem parallel_call_error_order_deterministic {α β ε : Type} (g₁ g₂ : ParGroup α β ε)
    (n m : String) (f h : BranchFun α β ε) (sched sched' : String → Nat) (input : α)
    (config : RunnableConfig) (e e' : ε)
    (hok : ∀ p ∈ g₁, ∃ v, p.2 input config = Except.ok v)
    (herr : f input config = .error e)
    (_hm : (m, h) ∈ g₂) (_herr' : h input config = .error e') :
    RunnableParallel.call (g₁ ++ (n, f) :: g₂) sched input config = .error e ∧
    RunnableParallel.call (g₁ ++ (n, f) :: g₂) sched' input config = .error e :=
  ⟨call_error_first g₁ g₂ n f sched input config e hok herr,
   call_error_first g₁ g₂ n f sched' input config e hok herr⟩

theorem parallel_call_error_order_deterministic_witness :
    RunnableParallel.call twoFailGroup schedLateFirst () cfg5 = .error "first" :=
  (parallel_call_error_order_deterministic
    [("ok0", fun _ _ => Except.ok 0)] [("e2", fun _ _ => Except.error "second")]
    "e1" "e2" (fun _ _ => Except.error "first") (fun _ _ => Except.error "second")
    schedLateFirst sched0 () cfg5 "first" "second"
    (by
      intro p hp
      simp only [List.mem_singleton] at hp
      subst hp
      exact ⟨0, rfl⟩)
    rfl (List.mem_cons_self _ _) rfl).1

/-- Claim C4 counterexample: the claim says every argument that is not a plain
name-to-Task mapping makes the constructor throw.  The constructor's parameter
default `options = {}` replaces an `undefined` argument — which is not a plain
mapping — with the empty mapping, so `new RunnableParallel(undefined)`
succeeds instead of throwing. -/
theorem parallel_ctor_undefined_cex :
    RunnableParallel.construct JSVal.undefv = .ok [] ∧
      isPlainRunnableMap JSVal.undefv = false :=
  ⟨rfl, rfl⟩

/-- Claim C4 (amended): constructing with any defined argument that is not a
plain mapping of names to invoke-capable values throws synchronously from the
constructor (`undefined` alone is replaced by the default empty mapping and
accepted); a well-formed mapping is accepted with its entries in insertion
order; and none of the invocation paths ever raises the configuration error
itself: any error `_call` rejects with, any error the `_stream` generator
throws, and any error `batch` rejects with is some branch's own error. -/
theorem parallel_ctor_validation :
    (∀ v : JSVal, v ≠ JSVal.undefv → isPlainRunnableMap v = false →
      ∃ msg, RunnableParallel.construct v = .error msg) ∧
    (∀ entries, isPlainRunnableMap (JSVal.objv entries) = true →
      RunnableParallel.construct (JSVal.objv entries) = .ok entries) ∧
    RunnableParallel.construct JSVal.undefv = .ok [] ∧
    (∀ (α β ε : Type) (g : ParGroup α β ε) (sched : String → Nat) (input : α)
      (config : RunnableConfig) (e : ε),
      RunnableParallel.call g sched input config = .error e →
      ∃ p ∈ g, p.2 input config = .error e) ∧
    (∀ (α β ε : Type) (g : ParGroup α β ε) (sched : String → Nat) (input : α)
      (config : RunnableConfig) (e : ε),
      (RunnableParallel.stream g sched input config).2 = some e →
      ∃ p ∈ g, p.2 input config = .error e) ∧
    (∀ (α β ε : Type) (g : ParGroup α β ε) (sched : String → Nat) (esched : α → Nat)
      (inputs : List α) (config : RunnableConfig) (e : ε),
      RunnableParallel.batch g sched esched inputs config = .error e →
      ∃ x ∈ inputs, ∃ p ∈ g, p.2 x config = .error e) := by
  refine ⟨?_, ?_, rfl, ?_, ?_, ?_⟩
  · intro v hne hbad
    cases v with
    | undefv => exact absurd rfl hne
    | nullv => exact ⟨_, rfl⟩
    | boolv b => exact ⟨_, rfl⟩
    | numv n => exact ⟨_, rfl⟩
    | strv s => exact ⟨_, rfl⟩
    | funcv id => exact ⟨_, rfl⟩
    | arrv => exact ⟨_, rfl⟩
    | objv entries =>
      obtain ⟨msg, hmsg⟩ := validateEntries_error entries
        (by simpa [isPlainRunnableMap] using hbad)
      exact ⟨msg, by
        simp [RunnableParallel.construct, JSVal.typeof, JSVal.isArray, hmsg, Except.map]⟩
  · intro entries hgood
    have hval := validateEntries_ok entries (by simpa [isPlainRunnableMap] using hgood)
    simp [RunnableParallel.construct, JSVal.typeof, JSVal.isArray, hval, Except.map]
  · intro α β ε g sched input config e h
    exact call_error_src g sched input config e h
  · intro α β ε g sched input config e h
    exact stream_error_src g sched input config e h
  · intro α β ε g sched esched inputs config e h
    exact batch_error_src g sched esched inputs config e h

theorem parallel_ctor_validation_witness :
    ∃ msg, RunnableParallel.construct JSVal.arrv = .error msg :=
  parallel_ctor_validation.1 JSVal.arrv (by intro h; cases h) rfl

/-- Claim C5: for a group of N branches and an input on which all of them
resolve, `_stream` yields exactly N snapshots, and the final snapshot contains
an entry under every one of the N branch names. -/
theorem parallel_stream_count_and_final {α β ε : Type} (g : ParGroup α β ε)
    (sched : String → Nat) (input : α) (config : RunnableConfig)
    (hok : ∀ p ∈ g, ∃ v, p.2 input config = Except.ok v) :
    (RunnableParallel.stream g sched input config).1.length = g.length ∧
    ∀ snap, (RunnableParallel.stream g sched input config).1.getLast? = some snap →
      ∀ p ∈ g, (lookupName p.1 snap).isSome := by
  constructor
  · rw [stream_yields_eq g sched input config hok]
    simp only [List.length_map]
    exact (raceOrder_perm g.length (g.map Prod.fst)
      (List.length_map g Prod.fst)).length_eq.trans (List.length_map g Prod.fst)
  · intro snap hsnap p hp
    have hne : g ≠ [] := by
      intro h0
      subst h0
      simp [RunnableParallel.stream, streamLoopAux] at hsnap
    have hfin := stream_final_snapshot g sched input config hok hne
    rw [hsnap] at hfin
    have hsnap' := Option.some.inj hfin
    subst hsnap'
    rw [lookupName_isSome_iff]
    have hkey : p.1 ∈ g.map Prod.fst := List.mem_map.mpr ⟨p, hp, rfl⟩
    have hperm := (settleSeq_perm sched
      (resolvedEntries (g.map fun q => (q.1, q.2 input config)))).map Prod.fst
    rw [resolvedEntries_keys_of_ok _ (outcomes_all_ok hok), outcomes_keys] at hperm
    exact hperm.mem_iff.mpr hkey

theorem parallel_stream_count_and_final_witness :
    (RunnableParallel.stream gEx sched0 () cfg5).1.length = gEx.length :=
  (parallel_stream_count_and_final gEx sched0 () cfg5
    (by
      intro p hp
      simp only [gEx, List.mem_cons] at hp
      rcases hp with rfl | rfl | hp
      · exact ⟨_, rfl⟩
      · exact ⟨_, rfl⟩
      · simp at hp)).1

/-- Claim C6: the snapshots yielded by one `_stream` run — any run, also one a
rejecting branch later aborts — accumulate monotonically: a key present with
some value in an earlier snapshot is present with the same value in every
later snapshot of the same run. -/
theorem parallel_stream_monotonic {α β ε : Type} (g : ParGroup α β ε) (sched : String → Nat)
    (input : α) (config : RunnableConfig)
    (hnd : (g.map Prod.fst).Nodup)
    (i j : Nat) (hij : i < j) (si sj : List (String × β))
    (hsi : (RunnableParallel.stream g sched input config).1[i]? = some si)
    (hsj : (RunnableParallel.stream g sched input config).1[j]? = some sj)
    (n : String) (v : β) (hv : lookupName n si = some v) :
    lookupName n sj = some v := by
  obtain ⟨ws, hpw, hys⟩ := stream_yields_shape g sched input config
  rw [hys] at hsi hsj
  simp only [List.getElem?_map] at hsi hsj
  cases hwi : ws[i]? with
  | none => rw [hwi] at hsi; simp at hsi
  | some wi =>
    cases hwj : ws[j]? with
    | none => rw [hwj] at hsj; simp at hsj
    | some wj =>
      rw [hwi] at hsi
      rw [hwj] at hsj
      have hsi' : (settleSeq sched (resolvedEntries (g.map fun p =>
          (p.1, p.2 input config)))).filter (fun p => decide (sched p.1 ≤ sched wi)) = si := by
        simpa using hsi
      have hsj' : (settleSeq sched (resolvedEntries (g.map fun p =>
          (p.1, p.2 input config)))).filter (fun p => decide (sched p.1 ≤ sched wj)) = sj := by
        simpa using hsj
      obtain ⟨hilen, hieq⟩ := List.getElem?_eq_some_iff.mp hwi
      obtain ⟨hjlen, hjeq⟩ := List.getElem?_eq_some_iff.mp hwj
      have hle : sched wi ≤ sched wj := by
        have := List.pairwise_iff_get.mp hpw ⟨i, hilen⟩ ⟨j, hjlen⟩ hij
        simpa [List.get_eq_getElem, hieq, hjeq] using this
      have hkeys : ((settleSeq sched (resolvedEntries (g.map fun p =>
          (p.1, p.2 input config)))).map Prod.fst).Nodup := by
        have hperm := (settleSeq_perm sched
          (resolvedEntries (g.map fun q => (q.1, q.2 input config)))).map Prod.fst
        refine (hperm.nodup_iff).mpr ?_
        have hsub := resolvedEntries_keys_sublist (g.map fun q => (q.1, q.2 input config))
        rw [outcomes_keys] at hsub
        exact List.Nodup.sublist hsub hnd
      rw [← hsj']
      rw [← hsi'] at hv
      exact lookupName_filter_le hkeys hle hv

theorem parallel_stream_monotonic_witness :
    lookupName "h" [(("h" : String), (30 : Nat)), ("g", 20), ("f", 10)] = some 30 :=
  parallel_stream_monotonic gFGH schedFGH () cfg5 (by decide)
    0 2 (by decide) [("h", 30)] [("h", 30), ("g", 20), ("f", 10)] rfl rfl "h" 30 rfl

/-- Claim C9: for an input on which every branch resolves, the final snapshot
yielded by `_stream` is equal as a key-value map to the result `_call`
resolves to: the streaming path and the join path compute the same fan-in. -/
theorem parallel_stream_final_matches_call {α β ε : Type} (g : ParGroup α β ε)
    (sched : String → Nat) (input : α) (config : RunnableConfig)
    (hnd : (g.map Prod.fst).Nodup)
    (hok : ∀ p ∈ g, ∃ v, p.2 input config = Except.ok v)
    (snap : List (String × β))
    (hsnap : (RunnableParallel.stream g sched input config).1.getLast? = some snap)
    (out : List (String × β))
    (hout : RunnableParallel.call g sched input config = .ok out) :
    ∀ n, lookupName n snap = lookupName n out := by
  have hout' := call_ok_of_resolved g sched input config hok
  rw [hout] at hout'
  have houteq := Except.ok.inj hout'
  have hne : g ≠ [] := by
    intro h0
    subst h0
    simp [RunnableParallel.stream, streamLoopAux] at hsnap
  have hfin := stream_final_snapshot g sched input config hok hne
  rw [hsnap] at hfin
  have hsnap' := Option.some.inj hfin
  subst hsnap'
  subst houteq
  intro n
  have hkeys : (((settleSeq sched (resolvedEntries (g.map fun p =>
      (p.1, p.2 input config))))).map Prod.fst).Nodup := by
    have hperm := (settleSeq_perm sched
      (resolvedEntries (g.map fun q => (q.1, q.2 input config)))).map Prod.fst
    rw [resolvedEntries_keys_of_ok _ (outcomes_all_ok hok), outcomes_keys] at hperm
    exact (hperm.nodup_iff).mpr hnd
  exact lookupName_perm hkeys (settleSeq_perm sched _) n

theorem parallel_stream_final_matches_call_witness :
    lookupName "f" [(("h" : String), (30 : Nat)), ("g", 20), ("f", 10)] =
      lookupName "f" [("f", 10), ("g", 20), ("h", 30)] :=
  parallel_stream_final_matches_call gFGH schedFGH () cfg5 (by decide)
    (by
      intro p hp
      simp only [gFGH, List.mem_cons] at hp
      rcases hp with rfl | rfl | rfl | hp
      · exact ⟨_, rfl⟩
      · exact ⟨_, rfl⟩
      · exact ⟨_, rfl⟩
      · simp at hp)
    [("h", 30), ("g", 20), ("f", 10)] rfl [("f", 10), ("g", 20), ("h", 30)] rfl "f"

/-- Claim C7: each value yielded by `_stream` is a fresh shallow copy of the
accumulating result map.  In the heap-instrumented semantics: the yielded
addresses are pairwise distinct (every two yields hand out distinct objects),
every yielded address differs from address 0 (the mutable `results` object),
and the contents stored at any address other than 0 are never changed by the
remainder of the run — recording later branch completions writes only to
address 0 — so an already-yielded snapshot's key set and values are unchanged
for the rest of the stream. -/
theorem parallel_stream_snapshots_fresh {α β ε : Type} :
    (∀ (g : ParGroup α β ε) (sched : String → Nat) (input : α) (config : RunnableConfig),
      (RunnableParallel.streamHeap g sched input config).yields.Pairwise (· ≠ ·) ∧
      ∀ a ∈ (RunnableParallel.streamHeap g sched input config).yields, 1 ≤ a) ∧
    (∀ (t : String → Nat) (fuel : Nat) (pending : List String) (unrec : List (String × β))
      (h : StreamHeap β) (a : Nat), 1 ≤ a → a < h.store.length →
      (heapLoop t fuel pending unrec h).store[a]? = h.store[a]?) := by
  constructor
  · intro g sched input config
    have hinv := heapLoop_yields_inv sched g.length (g.map Prod.fst)
      (settleSeq sched (resolvedEntries (g.map (fun p => (p.1, p.2 input config)))))
      { store := [[]], yields := [] }
      (List.Pairwise.nil) (by intro x hx; simp at hx) (by intro x hx; simp at hx)
      (by simp)
    exact ⟨hinv.1.imp (fun hlt => ne_of_lt hlt), hinv.2⟩
  · exact fun t fuel pending unrec h a h1 h2 => heapLoop_preserves t fuel pending unrec h a h1 h2

theorem parallel_stream_snapshots_fresh_witness :
    (heapLoop sched0 1 ["a"] ([] : List (String × Nat))
      { store := [[], [(("x" : String), (7 : Nat))]], yields := [1] }).store[1]? =
      (({ store := [[], [("x", 7)]], yields := [1] } : StreamHeap Nat)).store[1]? :=
  (parallel_stream_snapshots_fresh (α := Unit) (ε := String)).2 sched0 1 ["a"] []
    { store := [[], [("x", 7)]], yields := [1] } 1 (by decide) (by decide)

/-- Claim C8: `batch` runs the whole group once per input element; when every
element's run resolves it resolves to the list of result maps in input order,
independently of the elements' completion schedule; and if any single
element's run rejects, the whole batch rejects rather than returning partial
results. -/
theorem parallel_batch_order_fail_fast {α β ε : Type} (g : ParGroup α β ε)
    (sched : String → Nat) (esched esched' : α → Nat) (inputs : List α)
    (config : RunnableConfig) :
    ((∀ x ∈ inputs, ∃ out, RunnableParallel.call g sched x config = .ok out) →
      RunnableParallel.batch g sched esched inputs config =
        RunnableParallel.batch g sched esched' inputs config ∧
      ∃ outs, RunnableParallel.batch g sched esched inputs config = .ok outs ∧
        List.Forall₂ (fun x out => RunnableParallel.call g sched x config = .ok out)
          inputs outs) ∧
    (∀ x ∈ inputs, ∀ e, RunnableParallel.call g sched x config = .error e →
      ∃ e', RunnableParallel.batch g sched esched inputs config = .error e') := by
  constructor
  · intro hall
    have hps : ∀ esc : α → Nat, ∀ p ∈ inputs.map (fun x =>
        (esc x, RunnableParallel.call g sched x config)), ∃ v, p.2 = Except.ok v := by
      intro esc p hp
      obtain ⟨x, hx, he⟩ := List.mem_map.mp hp
      obtain ⟨out, hout⟩ := hall x hx
      exact ⟨out, by rw [← he]; exact hout⟩
    constructor
    · rw [RunnableParallel.batch, RunnableParallel.batch, promiseAll_ok _ (hps esched),
        promiseAll_ok _ (hps esched'), List.filterMap_map, List.filterMap_map]
      rfl
    · refine ⟨_, by rw [RunnableParallel.batch, promiseAll_ok _ (hps esched)], ?_⟩
      have hf2 := filterMap_ok_forall₂ _ (hps esched)
      exact (List.forall₂_map_left_iff).mp hf2
  · intro x hx e he
    refine promiseAll_error _ ((fun x => (esched x, RunnableParallel.call g sched x config)) x)
      (List.mem_map.mpr ⟨x, hx, rfl⟩) e he

theorem parallel_batch_order_fail_fast_witness :
    ∃ outs, RunnableParallel.batch gEx sched0 (fun _ => 0) [(), ()] cfg5 = .ok outs ∧
      List.Forall₂ (fun x out => RunnableParallel.call gEx sched0 x cfg5 = .ok out)
        [(), ()] outs :=
  ((parallel_batch_order_fail_fast gEx sched0 (fun _ => 0) (fun _ => 1) [(), ()] cfg5).1
    (by intro x hx; exact ⟨_, rfl⟩)).2
